import Mathlib

/-!
A verification development for a small doubly linked list library written in
Rust.  The library provides a bulk constructor (the `doubly_linked_list!`
macro) building a chain of reference-counted nodes and a `DoublyLinkedList`
owning an optional root, forward and reverse iterators (`iter`, `rev_iter`,
`NodeIterator::next` via `iterate_in_direction!`), a tail finder
`Node::last`, and `Debug` rendering for nodes and lists.

The embedding models an `Rc<Node<T>>` pointer as an index into a heap (a
list of allocated nodes) and models every `RefCell` take / restore on a
link field as an explicit functional heap update, so the take-then-restore
discipline of the source is visible in the definitions.  Loops take
explicit fuel; heap lookups are fallible (`Option`), with `none` standing
for the unreachable panic / divergence branches of the source.
-/

namespace DLL

variable {T : Type}

/-- One list node.  `prev` and `next` are the `RefCell<Option<Rc<Node>>>`
link fields, modelled as optional heap indices; `value` is the payload
(an `Rc<T>` in the source, shared not copied, so modelled as the value
itself). -/
structure Node (T : Type) where
  prev : Option Nat
  value : T
  next : Option Nat
deriving DecidableEq

/-- The heap of allocated nodes; an `Rc<Node<T>>` is an index into it. -/
structure Heap (T : Type) where
  nodes : List (Node T)
deriving DecidableEq

/-- Dereference a node pointer; `none` models a dangling pointer, which
safe Rust rules out and which is unreachable on the heaps the constructor
builds. -/
def Heap.get? (h : Heap T) (i : Nat) : Option (Node T) := h.nodes[i]?

/-- Write the `next` link field of node `i` (no-op on a dangling index). -/
def Heap.setNext (h : Heap T) (i : Nat) (v : Option Nat) : Heap T :=
  match h.nodes[i]? with
  | some nd => ⟨h.nodes.set i ⟨nd.prev, nd.value, v⟩⟩
  | none => h

/-- Write the `prev` link field of node `i` (no-op on a dangling index). -/
def Heap.setPrev (h : Heap T) (i : Nat) (v : Option Nat) : Heap T :=
  match h.nodes[i]? with
  | some nd => ⟨h.nodes.set i ⟨v, nd.value, nd.next⟩⟩
  | none => h

/-- The list type `DoublyLinkedList`: owns `root: RefCell<Option<Rc<Node>>>`,
the entry point of the chain. -/
structure DoublyLinkedList where
  root : Option Nat
deriving DecidableEq

/-- The iterator `NodeIterator`: a cursor (`node`) plus a fixed direction flag. -/
structure NodeIterator where
  node : Option Nat
  reverse : Bool
deriving DecidableEq

/-- The running state of the `doubly_linked_list!` macro body: the nodes
allocated so far, the tracked `root`, and `ptr`, the previously created
node. -/
structure BuildState (T : Type) where
  heap : Heap T
  root : Option Nat
  ptr : Option Nat
deriving DecidableEq

/-- One expansion step of the `doubly_linked_list!` macro body for a single
element `x`: allocate a node whose `prev` clones the running `ptr` and
whose `next` is `None`; then, only if a previous node exists, set its
`next` to the new node and, when `root` is still unset, set `root` to that
previous node; finally move `ptr` to the new node. -/
def buildStep (s : BuildState T) (x : T) : BuildState T :=
  let cur := s.heap.nodes.length
  let heap1 : Heap T := ⟨s.heap.nodes ++ [⟨s.ptr, x, none⟩]⟩
  match s.ptr with
  | some p =>
      ⟨heap1.setNext p (some cur),
       if s.root.isNone then some p else s.root,
       some cur⟩
  | none => ⟨heap1, s.root, some cur⟩

/-- The `doubly_linked_list!` macro: repeat the per-element statement block
over the elements left to right (starting from `root = None`, `ptr =
None`), drop `ptr`, and wrap the final `root` in a `DoublyLinkedList`.
Returns the node heap together with the constructed list.  (The macro's
pattern requires at least one element; the empty case is included for
completeness and yields an empty heap and a rootless list, which is what
the zero-repetition expansion of the body would produce.) -/
def doubly_linked_list (elems : List T) : Heap T × DoublyLinkedList :=
  let s := elems.foldl buildStep ⟨⟨[]⟩, none, none⟩
  (s.heap, ⟨s.root⟩)

/-- Model of `DoublyLinkedList::iter`: take the root out of its cell; when present,
restore a clone and start a forward iterator at the root; the result is
(the list as the call leaves it, the fresh iterator). -/
def DoublyLinkedList.iter (l : DoublyLinkedList) : DoublyLinkedList × NodeIterator :=
  match l.root with
  | some i => (⟨some i⟩, ⟨some i, false⟩)
  | none => (⟨none⟩, ⟨none, false⟩)

/-- Model of `Node::last`: walk the `next` chain, taking each link out of its cell
and immediately restoring it, until a node with no `next` remains; return
that node.  `fuel` bounds the walk (the source loop is unbounded;
exhausted fuel, like a dangling index, yields `none` and is unreachable on
the acyclic heaps the constructor builds once `fuel` covers the chain
length). -/
def Node.last : Heap T → Nat → Nat → Option (Nat × Heap T)
  | _, 0, _ => none
  | h, fuel + 1, i =>
    match h.get? i with
    | none => none
    | some nd =>
      match nd.next with
      | none => some (i, h)
      | some j => Node.last ((h.setNext i none).setNext i (some j)) fuel j

/-- Model of `DoublyLinkedList::rev_iter`: take the root; when present, find the
chain's tail with `Node::last`, restore the root, and start a reverse
iterator at the tail.  The fuel handed to `Node::last` is the heap size,
enough for any acyclic chain. -/
def DoublyLinkedList.rev_iter (h : Heap T) (l : DoublyLinkedList) :
    Option (Heap T × DoublyLinkedList × NodeIterator) :=
  match l.root with
  | some i =>
    match Node.last h h.nodes.length i with
    | none => none
    | some (j, h1) => some (h1, ⟨some i⟩, ⟨some j, true⟩)
  | none => some (h, ⟨none⟩, ⟨none, true⟩)

/-- Model of `NodeIterator::next` (the `iterate_in_direction!` macro, instantiated
with `next` when forward and `prev` when reverse): take the iterator's
node; when absent yield nothing; otherwise clone the node's value, take
the directional link field, restore it when it was present and move the
cursor there (the field stays `None`, its taken value, when the link was
absent), and yield the value. -/
def NodeIterator.next (h : Heap T) (it : NodeIterator) :
    Option (Option T × NodeIterator × Heap T) :=
  match it.node with
  | none => some (none, ⟨none, it.reverse⟩, h)
  | some i =>
    match h.get? i with
    | none => none
    | some nd =>
      if it.reverse then
        match nd.prev with
        | some j =>
          some (some nd.value, ⟨some j, it.reverse⟩, (h.setPrev i none).setPrev i (some j))
        | none => some (some nd.value, ⟨none, it.reverse⟩, h.setPrev i none)
      else
        match nd.next with
        | some j =>
          some (some nd.value, ⟨some j, it.reverse⟩, (h.setNext i none).setNext i (some j))
        | none => some (some nd.value, ⟨none, it.reverse⟩, h.setNext i none)

/-- Drive an iterator to exhaustion, recording the values it yields, and
return them with the final iterator and heap.  `fuel` bounds the number of
`next` calls. -/
def collect : Heap T → NodeIterator → Nat → Option (List T × NodeIterator × Heap T)
  | _, _, 0 => none
  | h, it, fuel + 1 =>
    match NodeIterator.next h it with
    | none => none
    | some (none, it1, h1) => some ([], it1, h1)
    | some (some v, it1, h1) =>
      match collect h1 it1 fuel with
      | none => none
      | some (vs, it2, h2) => some (v :: vs, it2, h2)

/-- Model of `Debug` for `Node`, parametrised by the payload's own debug rendering
`dbg`: write the value, then take the `next` link; when present, write the
separator, recurse (with the link still taken out, exactly as in the
source) and restore the link afterwards. -/
def Node.fmt (dbg : T → String) : Heap T → Nat → Nat → Option (String × Heap T)
  | _, 0, _ => none
  | h, fuel + 1, i =>
    match h.get? i with
    | none => none
    | some nd =>
      match nd.next with
      | none => some (dbg nd.value, h)
      | some j =>
        match Node.fmt dbg (h.setNext i none) fuel j with
        | none => none
        | some (s2, h2) => some (dbg nd.value ++ ",\n    " ++ s2, h2.setNext i (some j))

/-- Model of `Debug` for `DoublyLinkedList`: the header, then (when a root exists,
taken and restored around the node rendering) the indented chain rendering
and a newline, then the closing brace. -/
def DoublyLinkedList.fmt (dbg : T → String) (h : Heap T) (l : DoublyLinkedList) :
    Option (String × Heap T × DoublyLinkedList) :=
  match l.root with
  | some i =>
    match Node.fmt dbg h h.nodes.length i with
    | none => none
    | some (s, h1) =>
      some ("DoublyLinkedList \x7b\n" ++ "    " ++ s ++ "\n" ++ "\x7d", h1, ⟨some i⟩)
  | none => some ("DoublyLinkedList \x7b\n" ++ "\x7d", h, ⟨none⟩)

/-- The sequence of node indices visited by following `next` links from a
starting pointer, up to `fuel` nodes. -/
def walkNext (h : Heap T) : Nat → Option Nat → List Nat
  | _, none => []
  | 0, some _ => []
  | fuel + 1, some i =>
    i :: walkNext h fuel
      (match h.get? i with
       | some nd => nd.next
       | none => none)

/-- The node the bulk constructor ends up with at position `i` of a chain
built from `S`: `prev` points one down, `next` one up, with `none` at the
ends. -/
def specNode (S : List T) (i : Nat) (x : T) : Node T :=
  ⟨if i = 0 then none else some (i - 1), x,
   if i + 1 = S.length then none else some (i + 1)⟩

/-- The fully linked chain over the elements of `S`. -/
def specHeap (S : List T) : Heap T := ⟨S.mapIdx (specNode S)⟩

/-- The debug rendering of a node chain holding the values of `S`:
the values' renderings joined by `",\n    "`. -/
def chainStr (dbg : T → String) : List T → String
  | [] => ""
  | [x] => dbg x
  | x :: y :: rest => dbg x ++ ",\n    " ++ chainStr dbg (y :: rest)

/-! ### Heap update algebra

The take-then-restore discipline of the source nets out to the identity on
the heap; these lemmas make that usable. -/

theorem List.set_self {α : Type} {l : List α} {i : Nat} {a : α}
    (h : l[i]? = some a) : l.set i a = l := by
  apply List.ext_getElem?
  intro n
  rw [List.getElem?_set]
  by_cases hn : i = n
  · subst hn
    have hlt : i < l.length := (List.getElem?_eq_some_iff.1 h).1
    simp only [if_pos rfl, if_pos hlt]
    exact h.symm
  · simp [hn]

theorem Heap.get?_setNext (h : Heap T) (i j : Nat) (v : Option Nat) :
    (h.setNext i v).get? j =
      if j = i then (h.get? i).map (fun nd => ⟨nd.prev, nd.value, v⟩) else h.get? j := by
  unfold Heap.setNext
  cases hi : h.nodes[i]? with
  | none =>
    by_cases hj : j = i
    · subst hj
      simp [Heap.get?, hi]
    · simp [Heap.get?, hj]
  | some nd =>
    have hlt : i < h.nodes.length := (List.getElem?_eq_some_iff.1 hi).1
    by_cases hj : j = i
    · subst hj
      simp [Heap.get?, List.getElem?_set, hlt, hi]
    · have hij : ¬i = j := fun hh => hj hh.symm
      simp [Heap.get?, List.getElem?_set, hij, hj]

theorem Heap.get?_setPrev (h : Heap T) (i j : Nat) (v : Option Nat) :
    (h.setPrev i v).get? j =
      if j = i then (h.get? i).map (fun nd => ⟨v, nd.value, nd.next⟩) else h.get? j := by
  unfold Heap.setPrev
  cases hi : h.nodes[i]? with
  | none =>
    by_cases hj : j = i
    · subst hj
      simp [Heap.get?, hi]
    · simp [Heap.get?, hj]
  | some nd =>
    have hlt : i < h.nodes.length := (List.getElem?_eq_some_iff.1 hi).1
    by_cases hj : j = i
    · subst hj
      simp [Heap.get?, List.getElem?_set, hlt, hi]
    · have hij : ¬i = j := fun hh => hj hh.symm
      simp [Heap.get?, List.getElem?_set, hij, hj]

theorem Heap.ext_get? {h₁ h₂ : Heap T} (he : ∀ i, h₁.get? i = h₂.get? i) :
    h₁ = h₂ := by
  cases h₁; cases h₂
  simp only [Heap.mk.injEq]
  exact List.ext_getElem? he

theorem Heap.setNext_same {h : Heap T} {i : Nat} {nd : Node T}
    (hi : h.get? i = some nd) : h.setNext i nd.next = h := by
  unfold Heap.setNext
  unfold Heap.get? at hi
  rw [hi]
  exact congrArg Heap.mk (List.set_self hi)

theorem Heap.setPrev_same {h : Heap T} {i : Nat} {nd : Node T}
    (hi : h.get? i = some nd) : h.setPrev i nd.prev = h := by
  unfold Heap.setPrev
  unfold Heap.get? at hi
  rw [hi]
  exact congrArg Heap.mk (List.set_self hi)

theorem Heap.setNext_setNext (h : Heap T) (i : Nat) (a b : Option Nat) :
    (h.setNext i a).setNext i b = h.setNext i b := by
  apply Heap.ext_get?
  intro j
  simp only [Heap.get?_setNext]
  by_cases hj : j = i
  · cases hx : h.get? i <;> simp [hj, hx]
  · simp [hj]

theorem Heap.setPrev_setPrev (h : Heap T) (i : Nat) (a b : Option Nat) :
    (h.setPrev i a).setPrev i b = h.setPrev i b := by
  apply Heap.ext_get?
  intro j
  simp only [Heap.get?_setPrev]
  by_cases hj : j = i
  · cases hx : h.get? i <;> simp [hj, hx]
  · simp [hj]

theorem Heap.takeRestoreNext {h : Heap T} {i : Nat} {nd : Node T}
    (hi : h.get? i = some nd) :
    (h.setNext i none).setNext i nd.next = h := by
  rw [Heap.setNext_setNext, Heap.setNext_same hi]

theorem Heap.takeRestorePrev {h : Heap T} {i : Nat} {nd : Node T}
    (hi : h.get? i = some nd) :
    (h.setPrev i none).setPrev i nd.prev = h := by
  rw [Heap.setPrev_setPrev, Heap.setPrev_same hi]

/-! ### The shape of constructor-built heaps -/

theorem specHeap_length (S : List T) : (specHeap S).nodes.length = S.length := by
  simp [specHeap]

theorem specHeap_get? (S : List T) (i : Nat) :
    (specHeap S).get? i = (S[i]?).map (specNode S i) := by
  simp [specHeap, Heap.get?]

/-- The macro's running state after processing a prefix `P` of the input:
all nodes of `P` fully linked (the last one's `next` still unset), `ptr` on
the last node, and `root` set (to node 0) only once at least two elements
have been processed. -/
def midState : List T → BuildState T
  | [] => ⟨⟨[]⟩, none, none⟩
  | p :: P =>
    ⟨specHeap (p :: P),
     if 2 ≤ (p :: P).length then some 0 else none,
     some ((p :: P).length - 1)⟩

theorem Node.eq_of {a a' : Option Nat} {b b' : T} {c c' : Option Nat}
    (h1 : a = a') (h2 : b = b') (h3 : c = c') :
    (⟨a, b, c⟩ : Node T) = ⟨a', b', c'⟩ := by
  rw [h1, h2, h3]

theorem specNode_congr {S S' : List T} (i : Nat) (x : T)
    (h : i + 1 = S.length ↔ i + 1 = S'.length) : specNode S i x = specNode S' i x := by
  unfold specNode
  refine Node.eq_of rfl rfl ?_
  by_cases hc : i + 1 = S.length
  · rw [if_pos hc, if_pos (h.1 hc)]
  · rw [if_neg hc, if_neg (fun hc2 => hc (h.2 hc2))]

theorem buildStep_mid (p : T) (P : List T) (x : T) :
    buildStep (midState (p :: P)) x = midState (p :: (P ++ [x])) := by
  have hlen : (specHeap (p :: P)).nodes.length = P.length + 1 := by
    simpa using specHeap_length (p :: P)
  dsimp only [buildStep, midState, List.length_cons]
  simp only [Nat.add_sub_cancel]
  rw [hlen]
  simp only [BuildState.mk.injEq]
  refine ⟨?_, ?_, ?_⟩
  · -- the heap component
    apply Heap.ext_get?
    intro j
    rw [Heap.get?_setNext]
    have hget1 : ∀ n : Nat,
        (Heap.get? ⟨(specHeap (p :: P)).nodes ++ [⟨some P.length, x, none⟩]⟩ n) =
          if n < P.length + 1 then ((p :: P)[n]?).map (specNode (p :: P) n)
          else if n = P.length + 1 then some ⟨some P.length, x, none⟩ else none := by
      intro n
      show ((specHeap (p :: P)).nodes ++ [⟨some P.length, x, none⟩])[n]? = _
      rw [List.getElem?_append]
      by_cases hn : n < P.length + 1
      · rw [if_pos (by omega), if_pos hn]
        exact specHeap_get? (p :: P) n
      · rw [if_neg (by omega), if_neg hn]
        by_cases hn2 : n = P.length + 1
        · subst hn2
          rw [if_pos rfl]
          rw [hlen]
          simp
        · rw [if_neg hn2]
          rw [hlen]
          rw [List.getElem?_eq_none]
          simp only [List.length_singleton]
          omega
    have hgetR : ∀ n : Nat,
        (specHeap (p :: (P ++ [x]))).get? n =
          ((p :: P) ++ [x])[n]?.map (specNode (p :: (P ++ [x])) n) := by
      intro n
      rw [specHeap_get?]
      rw [List.cons_append]
    rw [hgetR]
    by_cases hj : j = P.length
    · -- the old tail gets its `next` set to the new node
      subst hj
      rw [if_pos rfl, hget1, if_pos (by omega)]
      have hv : (p :: P)[P.length]? =
          some ((p :: P).get ⟨P.length, by simp only [List.length_cons]; omega⟩) :=
        List.getElem?_eq_getElem (by simp only [List.length_cons]; omega)
      rw [List.getElem?_append, if_pos (by simp only [List.length_cons]; omega), hv]
      simp only [Option.map_some', specNode]
      refine congrArg some (Node.eq_of rfl rfl ?_)
      rw [if_neg (show ¬(P.length + 1 = (p :: (P ++ [x])).length) by
        simp only [List.length_cons, List.length_append, List.length_singleton, List.length_nil]
        omega)]
    · rw [if_neg hj, hget1]
      by_cases hj1 : j < P.length + 1
      · -- untouched interior nodes
        rw [if_pos hj1]
        have hjlt : j < P.length := by omega
        have hv : (p :: P)[j]? =
            some ((p :: P).get ⟨j, by simp only [List.length_cons]; omega⟩) :=
          List.getElem?_eq_getElem (by simp only [List.length_cons]; omega)
        rw [List.getElem?_append, if_pos (by simp only [List.length_cons]; omega), hv]
        simp only [Option.map_some']
        refine congrArg some (specNode_congr j _ ?_)
        simp only [List.length_cons, List.length_append, List.length_singleton, List.length_nil]
        constructor <;> intro <;> omega
      · rw [if_neg hj1]
        by_cases hj2 : j = P.length + 1
        · -- the freshly allocated node
          subst hj2
          rw [if_pos rfl]
          have hx2 : ((p :: P) ++ [x])[P.length + 1]? = some x := by
            have h2 := List.getElem?_concat_length (p :: P) x
            rw [List.length_cons] at h2
            exact h2
          rw [hx2]
          simp only [Option.map_some', specNode]
          refine congrArg some (Node.eq_of ?_ rfl ?_)
          · rw [if_neg (show ¬(P.length + 1 = 0) by omega)]
            simp
          · rw [if_pos (show P.length + 1 + 1 = (p :: (P ++ [x])).length by
              simp only [List.length_cons, List.length_append, List.length_singleton, List.length_nil])]
        · -- beyond the allocation
          rw [if_neg hj2, List.getElem?_eq_none (by
            simp only [List.length_cons, List.length_append, List.length_singleton, List.length_nil]
            omega)]
          rfl
  · -- the root component: set (to the previous node, index 0 of a
    -- two-element prefix) exactly when processing the second element
    cases P with
    | nil => simp
    | cons q Q => simp [Nat.le_add_left]
  · -- the ptr component
    simp

theorem foldl_buildStep (rest P : List T) :
    List.foldl buildStep (midState P) rest = midState (P ++ rest) := by
  induction rest generalizing P with
  | nil => simp
  | cons x xs ih =>
    rw [List.foldl_cons]
    have hstep : buildStep (midState P) x = midState (P ++ [x]) := by
      cases P with
      | nil => rfl
      | cons p P' => exact buildStep_mid p P' x
    rw [hstep, ih]
    simp

/-- What the bulk constructor actually produces: the fully linked chain
over `S`, and a root that is node 0 when `S` has at least two elements but
`none` otherwise (the macro body assigns `root` only while processing a
second element). -/
theorem doubly_linked_list_eq (S : List T) :
    doubly_linked_list S = (specHeap S, ⟨if 2 ≤ S.length then some 0 else none⟩) := by
  have h := foldl_buildStep S ([] : List T)
  simp only [List.nil_append] at h
  unfold doubly_linked_list
  rw [show (⟨⟨[]⟩, none, none⟩ : BuildState T) = midState [] from rfl, h]
  cases S with
  | nil => rfl
  | cons p P => rfl

/-! ### Frame lemmas: every link-walking operation leaves the heap and the
list exactly as found -/

theorem next_heap_eq {h : Heap T} {it : NodeIterator} {v : Option T}
    {it' : NodeIterator} {h' : Heap T}
    (hn : NodeIterator.next h it = some (v, it', h')) : h' = h := by
  unfold NodeIterator.next at hn
  split at hn
  · simp only [Option.some.injEq, Prod.mk.injEq] at hn
    exact hn.2.2.symm
  · rename_i i hit
    split at hn
    · exact absurd hn (by simp)
    · rename_i nd hg
      split at hn
      · split at hn
        · rename_i j hp
          simp only [Option.some.injEq, Prod.mk.injEq] at hn
          have hres := Heap.takeRestorePrev hg
          rw [hp] at hres
          rw [← hn.2.2, hres]
        · rename_i hp
          simp only [Option.some.injEq, Prod.mk.injEq] at hn
          have hres := Heap.setPrev_same hg
          rw [hp] at hres
          rw [← hn.2.2, hres]
      · split at hn
        · rename_i j hp
          simp only [Option.some.injEq, Prod.mk.injEq] at hn
          have hres := Heap.takeRestoreNext hg
          rw [hp] at hres
          rw [← hn.2.2, hres]
        · rename_i hp
          simp only [Option.some.injEq, Prod.mk.injEq] at hn
          have hres := Heap.setNext_same hg
          rw [hp] at hres
          rw [← hn.2.2, hres]

theorem last_heap_eq : ∀ (fuel : Nat) (h : Heap T) (i j : Nat) (h' : Heap T),
    Node.last h fuel i = some (j, h') → h' = h := by
  intro fuel
  induction fuel with
  | zero =>
    intro h i j h' hl
    exact absurd hl (by simp [Node.last])
  | succ fuel ih =>
    intro h i j h' hl
    unfold Node.last at hl
    split at hl
    · exact absurd hl (by simp)
    · rename_i nd hg
      split at hl
      · simp only [Option.some.injEq, Prod.mk.injEq] at hl
        exact hl.2.symm
      · rename_i k hk
        have hre := Heap.takeRestoreNext hg
        rw [hk] at hre
        rw [hre] at hl
        exact ih h k j h' hl

theorem collect_heap_eq : ∀ (fuel : Nat) (h : Heap T) (it : NodeIterator)
    (vs : List T) (it' : NodeIterator) (h' : Heap T),
    collect h it fuel = some (vs, it', h') → h' = h := by
  intro fuel
  induction fuel with
  | zero =>
    intro h it vs it' h' hc
    exact absurd hc (by simp [collect])
  | succ fuel ih =>
    intro h it vs it' h' hc
    unfold collect at hc
    split at hc
    · exact absurd hc (by simp)
    · rename_i it1 h1 hn
      simp only [Option.some.injEq, Prod.mk.injEq] at hc
      have h1h := next_heap_eq hn
      rw [← hc.2.2, h1h]
    · rename_i v it1 h1 hn
      split at hc
      · exact absurd hc (by simp)
      · rename_i vs2 it2 h2 hc2
        simp only [Option.some.injEq, Prod.mk.injEq] at hc
        have h1h := next_heap_eq hn
        have h2h := ih h1 it1 vs2 it2 h2 hc2
        rw [← hc.2.2, h2h, h1h]

theorem iter_fst (l : DoublyLinkedList) : (l.iter).1 = l := by
  cases l with
  | mk r =>
    cases r with
    | none => rfl
    | some i => rfl

theorem rev_iter_eq {h : Heap T} {l : DoublyLinkedList} {h' : Heap T}
    {l' : DoublyLinkedList} {it : NodeIterator}
    (hr : DoublyLinkedList.rev_iter h l = some (h', l', it)) : h' = h ∧ l' = l := by
  unfold DoublyLinkedList.rev_iter at hr
  split at hr
  · rename_i i hroot
    split at hr
    · exact absurd hr (by simp)
    · rename_i j h1 hlast
      simp only [Option.some.injEq, Prod.mk.injEq] at hr
      refine ⟨?_, ?_⟩
      · rw [← hr.1]
        exact last_heap_eq _ h i j h1 hlast
      · rw [← hr.2.1]
        cases l
        simp only [DoublyLinkedList.mk.injEq]
        exact hroot.symm
  · rename_i hroot
    simp only [Option.some.injEq, Prod.mk.injEq] at hr
    refine ⟨hr.1.symm, ?_⟩
    rw [← hr.2.1]
    cases l
    simp only [DoublyLinkedList.mk.injEq]
    exact hroot.symm

theorem fmt_heap_eq {dbg : T → String} : ∀ (fuel : Nat) (h : Heap T) (i : Nat)
    (s : String) (h' : Heap T),
    Node.fmt dbg h fuel i = some (s, h') → h' = h := by
  intro fuel
  induction fuel with
  | zero =>
    intro h i s h' hf
    exact absurd hf (by simp [Node.fmt])
  | succ fuel ih =>
    intro h i s h' hf
    unfold Node.fmt at hf
    split at hf
    · exact absurd hf (by simp)
    · rename_i nd hg
      split at hf
      · simp only [Option.some.injEq, Prod.mk.injEq] at hf
        exact hf.2.symm
      · rename_i j hj
        split at hf
        · exact absurd hf (by simp)
        · rename_i s2 h2 hf2
          simp only [Option.some.injEq, Prod.mk.injEq] at hf
          have h2h := ih (h.setNext i none) j s2 h2 hf2
          rw [← hf.2, h2h, Heap.setNext_setNext]
          have hsame := Heap.setNext_same hg
          rw [hj] at hsame
          exact hsame

theorem listFmt_eq {dbg : T → String} {h : Heap T} {l : DoublyLinkedList}
    {s : String} {h' : Heap T} {l' : DoublyLinkedList}
    (hf : DoublyLinkedList.fmt dbg h l = some (s, h', l')) : h' = h ∧ l' = l := by
  unfold DoublyLinkedList.fmt at hf
  split at hf
  · rename_i i hroot
    split at hf
    · exact absurd hf (by simp)
    · rename_i s1 h1 hf1
      simp only [Option.some.injEq, Prod.mk.injEq] at hf
      refine ⟨?_, ?_⟩
      · rw [← hf.2.1]
        exact fmt_heap_eq _ h i s1 h1 hf1
      · rw [← hf.2.2]
        cases l
        simp only [DoublyLinkedList.mk.injEq]
        exact hroot.symm
  · rename_i hroot
    simp only [Option.some.injEq, Prod.mk.injEq] at hf
    refine ⟨hf.2.1.symm, ?_⟩
    rw [← hf.2.2]
    cases l
    simp only [DoublyLinkedList.mk.injEq]
    exact hroot.symm

/-! ### Walking the constructor-built chain -/

theorem specNode_next (S : List T) (i : Nat) (x : T) :
    (specNode S i x).next = if i + 1 = S.length then none else some (i + 1) := rfl

theorem specNode_prev (S : List T) (i : Nat) (x : T) :
    (specNode S i x).prev = if i = 0 then none else some (i - 1) := rfl

theorem specNode_value (S : List T) (i : Nat) (x : T) :
    (specNode S i x).value = x := rfl

theorem specHeap_get?_lt (S : List T) (i : Nat) (hi : i < S.length) :
    (specHeap S).get? i = some (specNode S i (S.get ⟨i, hi⟩)) := by
  rw [specHeap_get?, List.getElem?_eq_getElem hi]
  rfl

/-- Running `Node::last` on the constructor-built chain reaches the final node and
hands the heap back untouched, for every start point in the chain. -/
theorem last_spec (S : List T) : ∀ (fuel i : Nat), i < S.length →
    S.length - i ≤ fuel →
    Node.last (specHeap S) fuel i = some (S.length - 1, specHeap S) := by
  intro fuel
  induction fuel with
  | zero =>
    intro i hi hfuel
    omega
  | succ fuel ih =>
    intro i hi hfuel
    have hnd := specHeap_get?_lt S i hi
    unfold Node.last
    split
    · rename_i hg
      rw [hnd] at hg
      exact Option.noConfusion hg
    · rename_i nd hg
      rw [hnd] at hg
      injection hg with hg
      subst hg
      split
      · rename_i hnone
        rw [specNode_next] at hnone
        have hend : i + 1 = S.length := by
          by_contra hend
          rw [if_neg hend] at hnone
          exact Option.noConfusion hnone
        exact congrArg (fun n => some (n, specHeap S)) (by omega : i = S.length - 1)
      · rename_i k hk
        rw [specNode_next] at hk
        have hend : ¬(i + 1 = S.length) := by
          intro hend
          rw [if_pos hend] at hk
          exact Option.noConfusion hk
        rw [if_neg hend] at hk
        injection hk with hk
        subst hk
        have hre := Heap.takeRestoreNext hnd
        rw [specNode_next, if_neg hend] at hre
        rw [hre]
        exact ih (i + 1) (by omega) (by omega)

theorem walkNext_none (h : Heap T) (fuel : Nat) : walkNext h fuel none = [] := by
  cases fuel <;> rfl

/-- Following `next` links from position `i` of the constructor-built chain
visits exactly the positions `i, i+1, …, |S|-1`, in order. -/
theorem walkNext_spec (S : List T) : ∀ (fuel i : Nat), i < S.length →
    S.length - i ≤ fuel →
    walkNext (specHeap S) fuel (some i) = List.range' i (S.length - i) := by
  intro fuel
  induction fuel with
  | zero =>
    intro i hi hf
    omega
  | succ fuel ih =>
    intro i hi hf
    have hnd := specHeap_get?_lt S i hi
    have hrange : List.range' i (S.length - i) =
        i :: List.range' (i + 1) (S.length - (i + 1)) := by
      have hsub : S.length - i = (S.length - (i + 1)) + 1 := by omega
      rw [hsub, List.range'_succ]
    rw [hrange]
    unfold walkNext
    congr 1
    rw [hnd]
    show walkNext (specHeap S) fuel ((specNode S i (S.get ⟨i, hi⟩)).next) =
      List.range' (i + 1) (S.length - (i + 1))
    rw [specNode_next]
    by_cases hend : i + 1 = S.length
    · rw [if_pos hend, walkNext_none]
      rw [show S.length - (i + 1) = 0 by omega, List.range'_zero]
    · rw [if_neg hend]
      exact ih (i + 1) (by omega) (by omega)

theorem chainStr_cons (dbg : T → String) (x : T) (rest : List T) (hr : rest ≠ []) :
    chainStr dbg (x :: rest) = dbg x ++ ",\n    " ++ chainStr dbg rest := by
  cases rest with
  | nil => exact absurd rfl hr
  | cons y t => rfl

/-- Rendering `Debug` for `Node` on (any heap that agrees above `i` with) the
constructor-built chain renders the remaining values joined by the
separator, and returns the heap it was given. -/
theorem fmt_spec (S : List T) (dbg : T → String) : ∀ (fuel i : Nat) (h : Heap T),
    (∀ k, i ≤ k → h.get? k = (specHeap S).get? k) →
    i < S.length → S.length - i ≤ fuel →
    Node.fmt dbg h fuel i = some (chainStr dbg (S.drop i), h) := by
  intro fuel
  induction fuel with
  | zero =>
    intro i h hag hi hf
    omega
  | succ fuel ih =>
    intro i h hag hi hf
    have hnd : h.get? i = some (specNode S i (S.get ⟨i, hi⟩)) := by
      rw [hag i (Nat.le_refl i)]
      exact specHeap_get?_lt S i hi
    have hdrop : S.drop i = S.get ⟨i, hi⟩ :: S.drop (i + 1) :=
      List.drop_eq_getElem_cons hi
    unfold Node.fmt
    split
    · rename_i hg
      rw [hnd] at hg
      exact Option.noConfusion hg
    · rename_i nd hg
      rw [hnd] at hg
      injection hg with hg
      subst hg
      split
      · rename_i hnone
        rw [specNode_next] at hnone
        have hend : i + 1 = S.length := by
          by_contra hend
          rw [if_neg hend] at hnone
          exact Option.noConfusion hnone
        have hdrop1 : S.drop (i + 1) = [] := List.drop_eq_nil_of_le (by omega)
        rw [hdrop, hdrop1]
        rfl
      · rename_i k hk
        rw [specNode_next] at hk
        have hend : ¬(i + 1 = S.length) := by
          intro hend
          rw [if_pos hend] at hk
          exact Option.noConfusion hk
        rw [if_neg hend] at hk
        injection hk with hk
        subst hk
        have hag1 : ∀ k, i + 1 ≤ k → (h.setNext i none).get? k = (specHeap S).get? k := by
          intro k hik
          rw [Heap.get?_setNext, if_neg (by omega)]
          exact hag k (by omega)
        split
        · rename_i hfmt
          rw [ih (i + 1) (h.setNext i none) hag1 (by omega) (by omega)] at hfmt
          exact Option.noConfusion hfmt
        · rename_i s2 h2 hfmt
          rw [ih (i + 1) (h.setNext i none) hag1 (by omega) (by omega)] at hfmt
          injection hfmt with hfmt
          have hs2 : chainStr dbg (S.drop (i + 1)) = s2 := congrArg Prod.fst hfmt
          have hh2 : h.setNext i none = h2 := congrArg Prod.snd hfmt
          have hre := Heap.setNext_same hnd
          rw [specNode_next, if_neg hend] at hre
          rw [← hs2, ← hh2, Heap.setNext_setNext, hre]
          rw [hdrop, chainStr_cons dbg _ _ (by
            intro hnil
            rw [List.drop_eq_nil_iff] at hnil
            omega)]
          rfl

/-- A single `NodeIterator::next` call on the constructor-built chain never
hits the dangling-pointer branch, whatever the cursor direction, as long as
the cursor is absent or in range. -/
theorem next_isSome (S : List T) (it : NodeIterator)
    (hv : ∀ i, it.node = some i → i < S.length) :
    (NodeIterator.next (specHeap S) it).isSome = true := by
  unfold NodeIterator.next
  split
  · rfl
  · rename_i i hit
    have hi := hv i hit
    split
    · rename_i hg
      rw [specHeap_get?_lt S i hi] at hg
      exact Option.noConfusion hg
    · rename_i nd hg
      split
      · split <;> rfl
      · split <;> rfl

theorem doubly_linked_list_fst (S : List T) :
    (doubly_linked_list S).1 = specHeap S := by
  rw [doubly_linked_list_eq]

theorem doubly_linked_list_snd (S : List T) :
    (doubly_linked_list S).2 = ⟨if 2 ≤ S.length then some 0 else none⟩ := by
  rw [doubly_linked_list_eq]

/-! ### The claims -/

/-- C1: the bulk constructor is claimed to process values left to right,
link each node to its neighbours, and return a list rooted at the
first-created node for every non-empty input, including a one-element
input.  On the one-element input `[42]` the code does allocate the single
(unlinked) node, but the returned list's root is `none`: the macro body
assigns `root` only inside the `if let Some(prev) = ptr` branch, which
first runs while processing a second element, so a one-element list comes
out rootless (and the node is dropped). -/
theorem claim_C1 :
    doubly_linked_list [(42 : Nat)] = (⟨[⟨none, 42, none⟩]⟩, ⟨none⟩) := by decide

/-- C2: `iter()` on the list built from `S` is claimed to yield exactly
`S`.  For the one-element sequence `[1]` the built list is rootless
(see C1), so the forward iterator is exhausted immediately and the
traversal yields `[]` instead of `[1]`. -/
theorem claim_C2 :
    collect (doubly_linked_list [(1 : Nat)]).1
      ((doubly_linked_list [(1 : Nat)]).2.iter).2 2 =
    some ([], ⟨none, false⟩, ⟨[⟨none, 1, none⟩]⟩) := by decide

/-- C3: `rev_iter()` on the list built from `S` is claimed to yield `S`
reversed.  For the one-element sequence `[1]` the built list is rootless
(see C1), so the reverse iterator is exhausted immediately and the
traversal yields `[]` instead of `[1]`. -/
theorem claim_C3 :
    (DoublyLinkedList.rev_iter (doubly_linked_list [(1 : Nat)]).1
        (doubly_linked_list [(1 : Nat)]).2).map
      (fun t => collect t.1 t.2.2 2) =
    some (some ([], ⟨none, true⟩, ⟨[⟨none, 1, none⟩]⟩)) := by decide

/-- C4 (counterexample): the `Debug` rendering of the list built from
`["a", "b"]` is claimed to be exactly `List {\n    "a",\n    "b"\n}`; the
code writes the struct's name, so the rendering actually starts with
`DoublyLinkedList {` and the claimed string is not produced. -/
theorem claim_C4_counterexample :
    ¬((DoublyLinkedList.fmt (fun s => "\"" ++ s ++ "\"")
          (doubly_linked_list ["a", "b"]).1 (doubly_linked_list ["a", "b"]).2).map
        (fun r => r.1) =
      some "List \x7b\n    \"a\",\n    \"b\"\n\x7d") := by decide

/-- C4 (amended): `Debug` rendering of the list built from `["a", "b"]`
produces exactly `DoublyLinkedList {\n    "a",\n    "b"\n}`, rendering of a
list whose root is `none` produces exactly `DoublyLinkedList {\n}`, and a
node chain over values `S` renders as `v1,\n    v2,\n    …` where each `v`
is the value's own debug rendering (the heap coming back untouched). -/
theorem claim_C4 {T : Type} (dbg : T → String) (S : List T) (hS : S ≠ []) :
    (DoublyLinkedList.fmt (fun s => "\"" ++ s ++ "\"")
        (doubly_linked_list ["a", "b"]).1 (doubly_linked_list ["a", "b"]).2).map
      (fun r => r.1) = some "DoublyLinkedList \x7b\n    \"a\",\n    \"b\"\n\x7d"
    ∧ (DoublyLinkedList.fmt dbg (specHeap S) ⟨none⟩).map (fun r => r.1) =
      some "DoublyLinkedList \x7b\n\x7d"
    ∧ Node.fmt dbg (specHeap S) S.length 0 = some (chainStr dbg S, specHeap S) := by
  refine ⟨by decide, rfl, ?_⟩
  have h0 : 0 < S.length := List.length_pos.2 hS
  have := fmt_spec S dbg S.length 0 (specHeap S) (fun k _ => rfl) h0 (by omega)
  rw [List.drop_zero] at this
  exact this

theorem claim_C4_witness :
    ((["a"] : List String) ≠ []) ∧
    ((DoublyLinkedList.fmt (fun s => "\"" ++ s ++ "\"")
        (doubly_linked_list ["a", "b"]).1 (doubly_linked_list ["a", "b"]).2).map
      (fun r => r.1) = some "DoublyLinkedList \x7b\n    \"a\",\n    \"b\"\n\x7d"
    ∧ (DoublyLinkedList.fmt (fun s => "\"" ++ s ++ "\"") (specHeap ["a"]) ⟨none⟩).map
        (fun r => r.1) = some "DoublyLinkedList \x7b\n\x7d"
    ∧ Node.fmt (fun s => "\"" ++ s ++ "\"") (specHeap ["a"]) (["a"] : List String).length 0 =
      some (chainStr (fun s => "\"" ++ s ++ "\"") ["a"], specHeap ["a"])) :=
  ⟨by decide, claim_C4 (fun s => "\"" ++ s ++ "\"") ["a"] (by decide)⟩

/-- C7: an exhausted iterator (cursor `none`) yields nothing on every
further `next` call and stays exhausted, in either direction; and the
iterators handed out for a rootless list are exhausted from the start. -/
theorem claim_C7 {T : Type} (h : Heap T) (r : Bool) :
    NodeIterator.next h ⟨none, r⟩ = some (none, ⟨none, r⟩, h)
    ∧ (DoublyLinkedList.iter ⟨none⟩).2 = ⟨none, false⟩
    ∧ DoublyLinkedList.rev_iter h ⟨none⟩ = some (h, ⟨none⟩, ⟨none, true⟩) :=
  ⟨rfl, rfl, rfl⟩

/-- C5: on the chain built from a non-empty `S`, `Node::last` applied to
the chain's first node returns the node holding the last element of `S`
(and gives the heap back unchanged); applied to a node with no `next` — a
one-element chain — it returns that same node. -/
theorem claim_C5 {T : Type} (S : List T) (x : T) (hS : S ≠ []) :
    Node.last (doubly_linked_list S).1 S.length 0 =
      some (S.length - 1, (doubly_linked_list S).1)
    ∧ (((doubly_linked_list S).1.get? (S.length - 1)).map Node.value =
      some (S.getLast hS))
    ∧ Node.last (doubly_linked_list [x]).1 1 0 = some (0, (doubly_linked_list [x]).1) := by
  have hn : 0 < S.length := List.length_pos.2 hS
  have hheap := doubly_linked_list_fst S
  have hheap1 := doubly_linked_list_fst [x]
  refine ⟨?_, ?_, ?_⟩
  · rw [hheap]
    exact last_spec S S.length 0 hn (by omega)
  · rw [hheap, specHeap_get?_lt S (S.length - 1) (by omega)]
    simp only [Option.map_some', specNode_value]
    rw [List.getLast_eq_getElem]
    rfl
  · rw [hheap1]
    exact last_spec [x] 1 0 (by simp) (by simp)

theorem claim_C5_witness :
    (([(1 : Nat), 2] : List Nat) ≠ []) ∧
    (Node.last (doubly_linked_list [(1 : Nat), 2]).1 ([(1 : Nat), 2] : List Nat).length 0 =
      some (([(1 : Nat), 2] : List Nat).length - 1, (doubly_linked_list [(1 : Nat), 2]).1)
    ∧ (((doubly_linked_list [(1 : Nat), 2]).1.get?
          (([(1 : Nat), 2] : List Nat).length - 1)).map Node.value =
      some (([(1 : Nat), 2] : List Nat).getLast (by decide)))
    ∧ Node.last (doubly_linked_list [(7 : Nat)]).1 1 0 =
      some (0, (doubly_linked_list [(7 : Nat)]).1)) :=
  ⟨by decide, claim_C5 [1, 2] 7 (by decide)⟩

/-- C6: `iter()` (and `rev_iter()`) are restartable and non-destructive:
a full traversal hands the heap back unchanged and leaves the list's root
as it was, so running the same traversal again produces the very same
sequence of values (and the same final iterator and heap). -/
theorem claim_C6 {T : Type} (h : Heap T) (l : DoublyLinkedList) (fuel : Nat)
    (vs ws : List T) (it1 jt1 : NodeIterator) (h1 g1 hA : Heap T)
    (l2 : DoublyLinkedList) (it2 : NodeIterator)
    (hfwd : collect h ((l.iter).2) fuel = some (vs, it1, h1))
    (hrev : DoublyLinkedList.rev_iter h l = some (hA, l2, it2))
    (hrevc : collect hA it2 fuel = some (ws, jt1, g1)) :
    (l.iter).1 = l ∧ h1 = h
    ∧ collect h1 ((((l.iter).1).iter).2) fuel = some (vs, it1, h1)
    ∧ hA = h ∧ l2 = l ∧ g1 = hA
    ∧ DoublyLinkedList.rev_iter g1 l2 = some (hA, l2, it2)
    ∧ collect g1 it2 fuel = some (ws, jt1, g1) := by
  have hh1 : h1 = h := collect_heap_eq fuel h ((l.iter).2) vs it1 h1 hfwd
  have hAh : hA = h := (rev_iter_eq hrev).1
  have hl2 : l2 = l := (rev_iter_eq hrev).2
  have hg1 : g1 = hA := collect_heap_eq fuel hA it2 ws jt1 g1 hrevc
  refine ⟨iter_fst l, hh1, ?_, hAh, hl2, hg1, ?_, ?_⟩
  · rw [hh1] at hfwd ⊢
    rw [iter_fst l]
    exact hfwd
  · rw [hAh, hl2] at hrev ⊢
    rw [hg1, hAh]
    exact hrev
  · rw [hg1, hAh] at hrevc ⊢
    exact hrevc

theorem claim_C6_witness :
    (collect (⟨[⟨none, 1, some 1⟩, ⟨some 0, 2, none⟩]⟩ : Heap Nat)
        (((⟨some 0⟩ : DoublyLinkedList).iter).2) 3 =
      some ([1, 2], ⟨none, false⟩, ⟨[⟨none, 1, some 1⟩, ⟨some 0, 2, none⟩]⟩))
    ∧ (DoublyLinkedList.rev_iter (⟨[⟨none, 1, some 1⟩, ⟨some 0, 2, none⟩]⟩ : Heap Nat)
        ⟨some 0⟩ =
      some (⟨[⟨none, 1, some 1⟩, ⟨some 0, 2, none⟩]⟩, ⟨some 0⟩, ⟨some 1, true⟩))
    ∧ (collect (⟨[⟨none, 1, some 1⟩, ⟨some 0, 2, none⟩]⟩ : Heap Nat) ⟨some 1, true⟩ 3 =
      some ([2, 1], ⟨none, true⟩, ⟨[⟨none, 1, some 1⟩, ⟨some 0, 2, none⟩]⟩))
    ∧ (((⟨some 0⟩ : DoublyLinkedList).iter).1 = ⟨some 0⟩
    ∧ (⟨[⟨none, 1, some 1⟩, ⟨some 0, 2, none⟩]⟩ : Heap Nat) =
        ⟨[⟨none, 1, some 1⟩, ⟨some 0, 2, none⟩]⟩
    ∧ collect (⟨[⟨none, 1, some 1⟩, ⟨some 0, 2, none⟩]⟩ : Heap Nat)
        (((((⟨some 0⟩ : DoublyLinkedList).iter).1).iter).2) 3 =
      some ([1, 2], ⟨none, false⟩, ⟨[⟨none, 1, some 1⟩, ⟨some 0, 2, none⟩]⟩)
    ∧ (⟨[⟨none, 1, some 1⟩, ⟨some 0, 2, none⟩]⟩ : Heap Nat) =
        ⟨[⟨none, 1, some 1⟩, ⟨some 0, 2, none⟩]⟩
    ∧ (⟨some 0⟩ : DoublyLinkedList) = ⟨some 0⟩
    ∧ (⟨[⟨none, 1, some 1⟩, ⟨some 0, 2, none⟩]⟩ : Heap Nat) =
        ⟨[⟨none, 1, some 1⟩, ⟨some 0, 2, none⟩]⟩
    ∧ DoublyLinkedList.rev_iter (⟨[⟨none, 1, some 1⟩, ⟨some 0, 2, none⟩]⟩ : Heap Nat)
        ⟨some 0⟩ =
      some (⟨[⟨none, 1, some 1⟩, ⟨some 0, 2, none⟩]⟩, ⟨some 0⟩, ⟨some 1, true⟩)
    ∧ collect (⟨[⟨none, 1, some 1⟩, ⟨some 0, 2, none⟩]⟩ : Heap Nat) ⟨some 1, true⟩ 3 =
      some ([2, 1], ⟨none, true⟩, ⟨[⟨none, 1, some 1⟩, ⟨some 0, 2, none⟩]⟩)) :=
  ⟨by decide, by decide, by decide,
   claim_C6 ⟨[⟨none, 1, some 1⟩, ⟨some 0, 2, none⟩]⟩ ⟨some 0⟩ 3
     [1, 2] [2, 1] ⟨none, false⟩ ⟨none, true⟩
     ⟨[⟨none, 1, some 1⟩, ⟨some 0, 2, none⟩]⟩
     ⟨[⟨none, 1, some 1⟩, ⟨some 0, 2, none⟩]⟩
     ⟨[⟨none, 1, some 1⟩, ⟨some 0, 2, none⟩]⟩
     ⟨some 0⟩ ⟨some 1, true⟩ (by decide) (by decide) (by decide)⟩

/-- C8: every link-walking operation — building an iterator (`iter`,
`rev_iter`), an iterator `next` call (either direction, so in particular
the reverse advance takes and restores the very `prev` field it read and
never writes `next`), `Node::last`, and both `Debug` renderings — hands
back the heap (all `prev`/`next` fields and all node values) and the
list's root exactly as they were. -/
theorem claim_C8 {T : Type} (dbg : T → String) (h : Heap T) (l : DoublyLinkedList)
    (it : NodeIterator) (fuel i : Nat)
    (v : Option T) (it' : NodeIterator) (hN : Heap T)
    (j : Nat) (hL : Heap T)
    (s : String) (hF : Heap T)
    (hR : Heap T) (lR : DoublyLinkedList) (itR : NodeIterator)
    (sD : String) (hD : Heap T) (lD : DoublyLinkedList)
    (hnext : NodeIterator.next h it = some (v, it', hN))
    (hlast : Node.last h fuel i = some (j, hL))
    (hfmt : Node.fmt dbg h fuel i = some (s, hF))
    (hrev : DoublyLinkedList.rev_iter h l = some (hR, lR, itR))
    (hlfmt : DoublyLinkedList.fmt dbg h l = some (sD, hD, lD)) :
    (l.iter).1 = l ∧ hN = h ∧ hL = h ∧ hF = h
    ∧ hR = h ∧ lR = l ∧ hD = h ∧ lD = l :=
  ⟨iter_fst l, next_heap_eq hnext, last_heap_eq fuel h i j hL hlast,
   fmt_heap_eq fuel h i s hF hfmt, (rev_iter_eq hrev).1, (rev_iter_eq hrev).2,
   (listFmt_eq hlfmt).1, (listFmt_eq hlfmt).2⟩

theorem claim_C8_witness :
    (NodeIterator.next (⟨[⟨none, 1, some 1⟩, ⟨some 0, 2, none⟩]⟩ : Heap Nat)
        ⟨some 0, true⟩ =
      some (some 1, ⟨none, true⟩, ⟨[⟨none, 1, some 1⟩, ⟨some 0, 2, none⟩]⟩))
    ∧ (Node.last (⟨[⟨none, 1, some 1⟩, ⟨some 0, 2, none⟩]⟩ : Heap Nat) 3 0 =
      some (1, ⟨[⟨none, 1, some 1⟩, ⟨some 0, 2, none⟩]⟩))
    ∧ (Node.fmt (fun _ => "v") (⟨[⟨none, 1, some 1⟩, ⟨some 0, 2, none⟩]⟩ : Heap Nat) 3 0 =
      some ("v,\n    v", ⟨[⟨none, 1, some 1⟩, ⟨some 0, 2, none⟩]⟩))
    ∧ (DoublyLinkedList.rev_iter (⟨[⟨none, 1, some 1⟩, ⟨some 0, 2, none⟩]⟩ : Heap Nat)
        ⟨some 0⟩ =
      some (⟨[⟨none, 1, some 1⟩, ⟨some 0, 2, none⟩]⟩, ⟨some 0⟩, ⟨some 1, true⟩))
    ∧ (DoublyLinkedList.fmt (fun _ => "v")
        (⟨[⟨none, 1, some 1⟩, ⟨some 0, 2, none⟩]⟩ : Heap Nat) ⟨some 0⟩ =
      some ("DoublyLinkedList \x7b\n    v,\n    v\n\x7d",
        ⟨[⟨none, 1, some 1⟩, ⟨some 0, 2, none⟩]⟩, ⟨some 0⟩))
    ∧ (((⟨some 0⟩ : DoublyLinkedList).iter).1 = ⟨some 0⟩
    ∧ (⟨[⟨none, 1, some 1⟩, ⟨some 0, 2, none⟩]⟩ : Heap Nat) =
        ⟨[⟨none, 1, some 1⟩, ⟨some 0, 2, none⟩]⟩
    ∧ (⟨[⟨none, 1, some 1⟩, ⟨some 0, 2, none⟩]⟩ : Heap Nat) =
        ⟨[⟨none, 1, some 1⟩, ⟨some 0, 2, none⟩]⟩
    ∧ (⟨[⟨none, 1, some 1⟩, ⟨some 0, 2, none⟩]⟩ : Heap Nat) =
        ⟨[⟨none, 1, some 1⟩, ⟨some 0, 2, none⟩]⟩
    ∧ (⟨[⟨none, 1, some 1⟩, ⟨some 0, 2, none⟩]⟩ : Heap Nat) =
        ⟨[⟨none, 1, some 1⟩, ⟨some 0, 2, none⟩]⟩
    ∧ (⟨some 0⟩ : DoublyLinkedList) = ⟨some 0⟩
    ∧ (⟨[⟨none, 1, some 1⟩, ⟨some 0, 2, none⟩]⟩ : Heap Nat) =
        ⟨[⟨none, 1, some 1⟩, ⟨some 0, 2, none⟩]⟩
    ∧ (⟨some 0⟩ : DoublyLinkedList) = ⟨some 0⟩) :=
  ⟨by decide, by decide, by decide, by decide, by decide,
   claim_C8 (fun _ => "v") ⟨[⟨none, 1, some 1⟩, ⟨some 0, 2, none⟩]⟩ ⟨some 0⟩
     ⟨some 0, true⟩ 3 0 (some 1) ⟨none, true⟩
     ⟨[⟨none, 1, some 1⟩, ⟨some 0, 2, none⟩]⟩ 1
     ⟨[⟨none, 1, some 1⟩, ⟨some 0, 2, none⟩]⟩ "v,\n    v"
     ⟨[⟨none, 1, some 1⟩, ⟨some 0, 2, none⟩]⟩
     ⟨[⟨none, 1, some 1⟩, ⟨some 0, 2, none⟩]⟩ ⟨some 0⟩ ⟨some 1, true⟩
     "DoublyLinkedList \x7b\n    v,\n    v\n\x7d"
     ⟨[⟨none, 1, some 1⟩, ⟨some 0, 2, none⟩]⟩ ⟨some 0⟩
     (by decide) (by decide) (by decide) (by decide) (by decide)⟩

/-- A constructed list with a present root has root node 0, and the input
had at least two elements. -/
theorem root_some {T : Type} (S : List T) (r : Nat)
    (hroot : (doubly_linked_list S).2 = ⟨some r⟩) : r = 0 ∧ 2 ≤ S.length := by
  rw [doubly_linked_list_snd] at hroot
  by_cases hc : 2 ≤ S.length
  · rw [if_pos hc] at hroot
    have hinj : some 0 = some r := congrArg DoublyLinkedList.root hroot
    injection hinj with hinj
    exact ⟨hinj.symm, hc⟩
  · rw [if_neg hc] at hroot
    have hinj : (none : Option Nat) = some r := congrArg DoublyLinkedList.root hroot
    exact absurd hinj (by simp)

/-- C9: whenever the constructed list's root is present, following `next`
links from the root visits node 0, 1, …, n-1 in order and then stops on a
`none` link with fuel to spare (`List.range n` lists each node exactly
once, so the chain is acyclic and complete); adjacent nodes point at each
other (`A.next = B` and `B.prev = A`); and the heap coming out of a `next`
call, a `Node::last` walk or a `Debug` rendering is the constructed heap
itself, so every operation preserves the invariant. -/
theorem claim_C9 {T : Type} (dbg : T → String) (S : List T) (r i fuel : Nat)
    (it : NodeIterator) (v : Option T) (it' : NodeIterator) (hN : Heap T)
    (j : Nat) (hL : Heap T) (s : String) (hF : Heap T)
    (hroot : (doubly_linked_list S).2 = ⟨some r⟩)
    (hadj : i + 1 < S.length)
    (hnx : NodeIterator.next (doubly_linked_list S).1 it = some (v, it', hN))
    (hlast : Node.last (doubly_linked_list S).1 fuel r = some (j, hL))
    (hfmt : Node.fmt dbg (doubly_linked_list S).1 fuel r = some (s, hF)) :
    walkNext (doubly_linked_list S).1 (S.length + 1) (some r) = List.range S.length
    ∧ ((doubly_linked_list S).1.get? i).map Node.next = some (some (i + 1))
    ∧ ((doubly_linked_list S).1.get? (i + 1)).map Node.prev = some (some i)
    ∧ hN = (doubly_linked_list S).1
    ∧ hL = (doubly_linked_list S).1
    ∧ hF = (doubly_linked_list S).1 := by
  have hheap := doubly_linked_list_fst S
  obtain ⟨hr, hlen⟩ := root_some S r hroot
  subst hr
  refine ⟨?_, ?_, ?_, ?_, ?_, ?_⟩
  · rw [hheap, walkNext_spec S (S.length + 1) 0 (by omega) (by omega), Nat.sub_zero]
    exact (List.range_eq_range' S.length).symm
  · rw [hheap, specHeap_get?_lt S i (by omega)]
    simp only [Option.map_some', specNode_next]
    rw [if_neg (by omega)]
  · rw [hheap, specHeap_get?_lt S (i + 1) (by omega)]
    simp only [Option.map_some', specNode_prev]
    rw [if_neg (by omega), Nat.add_sub_cancel]
  · exact next_heap_eq hnx
  · exact last_heap_eq fuel _ 0 j hL hlast
  · exact fmt_heap_eq fuel _ 0 s hF hfmt

/-- C10: on a constructed list no modelled operation reaches its
panic/divergence branch: a `next` call with an absent or in-range cursor,
the `Node::last` walk from the root, `rev_iter`, and both `Debug`
renderings all return a value (`isSome`); `iter` is total outright.  Every
take of a link field in these operations finds the field
populated-or-`none` and the matching restore succeeds, which is what the
heap-preservation lemmas behind C8 record. -/
theorem claim_C10 {T : Type} (dbg : T → String) (S : List T) (r k i : Nat) (b : Bool)
    (hroot : (doubly_linked_list S).2 = ⟨some r⟩)
    (hk : k < S.length) (hi : i < S.length) :
    (NodeIterator.next (doubly_linked_list S).1 ⟨none, b⟩).isSome = true
    ∧ (NodeIterator.next (doubly_linked_list S).1 ⟨some k, b⟩).isSome = true
    ∧ (Node.last (doubly_linked_list S).1 S.length r).isSome = true
    ∧ (DoublyLinkedList.rev_iter (doubly_linked_list S).1
        (doubly_linked_list S).2).isSome = true
    ∧ (Node.fmt dbg (doubly_linked_list S).1 S.length i).isSome = true
    ∧ (DoublyLinkedList.fmt dbg (doubly_linked_list S).1
        (doubly_linked_list S).2).isSome = true := by
  have hheap := doubly_linked_list_fst S
  have hsnd := doubly_linked_list_snd S
  obtain ⟨hr, hlen⟩ := root_some S r hroot
  subst hr
  refine ⟨rfl, ?_, ?_, ?_, ?_, ?_⟩
  · rw [hheap]
    refine next_isSome S ⟨some k, b⟩ ?_
    intro i0 h0
    have hki : some k = some i0 := h0
    injection hki with hki
    omega
  · rw [hheap, last_spec S S.length 0 (by omega) (by omega)]
    rfl
  · rw [hheap, hsnd, if_pos hlen]
    unfold DoublyLinkedList.rev_iter
    split
    · rename_i i0 hi0
      have hi0' : some 0 = some i0 := hi0
      injection hi0' with hi0'
      split
      · rename_i hnone
        rw [specHeap_length, ← hi0',
          last_spec S S.length 0 (by omega) (by omega)] at hnone
        exact Option.noConfusion hnone
      · rfl
    · rename_i hnone
      exact Option.noConfusion (show some (0 : Nat) = none from hnone)
  · rw [hheap]
    have := fmt_spec S dbg S.length i (specHeap S) (fun k2 _ => rfl) hi (by omega)
    rw [this]
    rfl
  · rw [hheap, hsnd, if_pos hlen]
    unfold DoublyLinkedList.fmt
    split
    · rename_i i0 hi0
      have hi0' : some 0 = some i0 := hi0
      injection hi0' with hi0'
      split
      · rename_i hnone
        rw [specHeap_length, ← hi0',
          fmt_spec S dbg S.length 0 (specHeap S) (fun k2 _ => rfl) (by omega)
            (by omega)] at hnone
        exact Option.noConfusion hnone
      · rfl
    · rename_i hnone
      exact Option.noConfusion (show some (0 : Nat) = none from hnone)

theorem claim_C9_witness :
    ((doubly_linked_list [(10 : Nat), 20, 30]).2 = ⟨some 0⟩)
    ∧ (0 + 1 < ([(10 : Nat), 20, 30] : List Nat).length)
    ∧ (NodeIterator.next (doubly_linked_list [(10 : Nat), 20, 30]).1 ⟨some 1, false⟩ =
        some (some 20, ⟨some 2, false⟩, (doubly_linked_list [(10 : Nat), 20, 30]).1))
    ∧ (Node.last (doubly_linked_list [(10 : Nat), 20, 30]).1 4 0 =
        some (2, (doubly_linked_list [(10 : Nat), 20, 30]).1))
    ∧ (Node.fmt (fun _ => "v") (doubly_linked_list [(10 : Nat), 20, 30]).1 4 0 =
        some ("v,\n    v,\n    v", (doubly_linked_list [(10 : Nat), 20, 30]).1))
    ∧ (walkNext (doubly_linked_list [(10 : Nat), 20, 30]).1
          (([(10 : Nat), 20, 30] : List Nat).length + 1) (some 0) =
        List.range ([(10 : Nat), 20, 30] : List Nat).length
      ∧ ((doubly_linked_list [(10 : Nat), 20, 30]).1.get? 0).map Node.next =
        some (some (0 + 1))
      ∧ ((doubly_linked_list [(10 : Nat), 20, 30]).1.get? (0 + 1)).map Node.prev =
        some (some 0)
      ∧ (doubly_linked_list [(10 : Nat), 20, 30]).1 =
          (doubly_linked_list [(10 : Nat), 20, 30]).1
      ∧ (doubly_linked_list [(10 : Nat), 20, 30]).1 =
          (doubly_linked_list [(10 : Nat), 20, 30]).1
      ∧ (doubly_linked_list [(10 : Nat), 20, 30]).1 =
          (doubly_linked_list [(10 : Nat), 20, 30]).1) :=
  ⟨by decide, by decide, by decide, by decide, by decide,
   claim_C9 (fun _ => "v") [10, 20, 30] 0 0 4 ⟨some 1, false⟩ (some 20)
     ⟨some 2, false⟩ (doubly_linked_list [(10 : Nat), 20, 30]).1 2
     (doubly_linked_list [(10 : Nat), 20, 30]).1 "v,\n    v,\n    v"
     (doubly_linked_list [(10 : Nat), 20, 30]).1
     (by decide) (by decide) (by decide) (by decide) (by decide)⟩

theorem claim_C10_witness :
    ((doubly_linked_list [(10 : Nat), 20]).2 = ⟨some 0⟩)
    ∧ (1 < ([(10 : Nat), 20] : List Nat).length)
    ∧ (0 < ([(10 : Nat), 20] : List Nat).length)
    ∧ ((NodeIterator.next (doubly_linked_list [(10 : Nat), 20]).1 ⟨none, true⟩).isSome = true
    ∧ (NodeIterator.next (doubly_linked_list [(10 : Nat), 20]).1 ⟨some 1, true⟩).isSome = true
    ∧ (Node.last (doubly_linked_list [(10 : Nat), 20]).1
        ([(10 : Nat), 20] : List Nat).length 0).isSome = true
    ∧ (DoublyLinkedList.rev_iter (doubly_linked_list [(10 : Nat), 20]).1
        (doubly_linked_list [(10 : Nat), 20]).2).isSome = true
    ∧ (Node.fmt (fun _ => "v") (doubly_linked_list [(10 : Nat), 20]).1
        ([(10 : Nat), 20] : List Nat).length 0).isSome = true
    ∧ (DoublyLinkedList.fmt (fun _ => "v") (doubly_linked_list [(10 : Nat), 20]).1
        (doubly_linked_list [(10 : Nat), 20]).2).isSome = true) :=
  ⟨by decide, by decide, by decide,
   claim_C10 (fun _ => "v") [10, 20] 0 1 0 true (by decide) (by decide) (by decide)⟩

end DLL
